import Mathlib

/-!
Verification of the `when` command-line utility (src/when/main.py, src/when/utils.py)
against its natural-language specification.

The program's data and operations are shallowly embedded:
timestamps are exact rationals (seconds since the Unix epoch) or, where a claim
talks about a concrete pendulum `DateTime`, integer microsecond counts; Python
floats are modelled by exact rational arithmetic (the claims under scrutiny only
probe values at millisecond or microsecond precision, well above the sub-microsecond
error of IEEE doubles in the relevant ranges); fallible code returns `Except`.
External collaborators (pendulum's natural-language parser, difflib's
`get_close_matches`, humanize's `precisedelta`, the timezone database) are either
embedded faithfully from their documented behaviour (difflib) or abstracted as
parameters, with concrete instantiations modelled from the spec where a claim
depends on them.
-/

namespace When

/-- Embedding of `when.utils.partition`: the Python loop appends each item to
`left` when `is_left(item)` is true and to `right` otherwise, folding over the
input in order.  Modelled as a `foldl` that appends on the matching side, exactly
mirroring the loop. -/
def partition {α : Type} (items : List α) (is_left : α → Bool) : List α × List α :=
  items.foldl
    (fun acc item => if is_left item then (acc.1 ++ [item], acc.2) else (acc.1, acc.2 ++ [item]))
    ([], [])

theorem partition_loop {α : Type} (items : List α) (p : α → Bool) (l r : List α) :
    items.foldl
      (fun acc item => if p item then (acc.1 ++ [item], acc.2) else (acc.1, acc.2 ++ [item]))
      (l, r) = (l ++ items.filter p, r ++ items.filter (fun x => !p x)) := by
  induction items generalizing l r with
  | nil => simp
  | cons x xs ih =>
    by_cases h : p x
    · simp [List.foldl_cons, h, ih]
    · simp only [Bool.not_eq_true] at h
      simp [List.foldl_cons, h, ih]

theorem partition_eq_filter {α : Type} (items : List α) (p : α → Bool) :
    partition items p = (items.filter p, items.filter (fun x => !p x)) := by
  simpa using partition_loop items p [] []

/-! ### Timestamp classifier: `when.main.parse_t`

The three regexes of src/when/main.py are embedded as decidable predicates on
`List Char` (the regex class `\d` is modelled as the ASCII digits; every string
a claim evaluates is ASCII).  Python `float(...)` applied to a string matched by
one of the patterns is modelled by exact rational arithmetic: the claims only
probe values at millisecond or microsecond precision, where the IEEE double
taken by the code and the exact rational agree. -/

def allDigits (l : List Char) : Bool := l.all Char.isDigit

/-- Fullmatch of `EPOCH_SECONDS = \d{1,10}(\.\d+)?`: one to ten digits,
optionally followed by a dot and at least one digit. -/
def matchSeconds (l : List Char) : Bool :=
  let ip := l.takeWhile Char.isDigit
  match l.dropWhile Char.isDigit with
  | [] => decide (1 ≤ ip.length) && decide (ip.length ≤ 10)
  | '.' :: fr =>
    decide (1 ≤ ip.length) && decide (ip.length ≤ 10) && decide (1 ≤ fr.length) && allDigits fr
  | _ => false

/-- Fullmatch of `\d{n}`: exactly `n` digits (`EPOCH_MILLISECONDS` for n = 13,
`EPOCH_MICROSECONDS` for n = 16). -/
def matchNDigits (n : ℕ) (l : List Char) : Bool :=
  allDigits l && decide (l.length = n)

def digitVal (c : Char) : ℕ := c.toNat - 48

def natOfDigits (ds : List Char) : ℕ :=
  ds.foldl (fun n c => 10 * n + digitVal c) 0

def fracOfDigits (ds : List Char) : ℚ :=
  (natOfDigits ds : ℚ) / 10 ^ ds.length

/-- Python `float(t)` for a string consisting of digits with an optional
fractional part, as an exact rational. -/
def parseDecimal (l : List Char) : ℚ :=
  let ip := l.takeWhile Char.isDigit
  match l.dropWhile Char.isDigit with
  | '.' :: fr => (natOfDigits ip : ℚ) + fracOfDigits fr
  | _ => (natOfDigits ip : ℚ)

/-- Result of the external `pendulum.parse`: an absolute `DateTime` (carried as
its exact epoch timestamp in seconds), or some non-`DateTime` value (a
`Duration`, `Date` or `Time`), which `parse_t` refuses. -/
inductive PValue
  | dt (ts : ℚ)
  | other
deriving DecidableEq

/-- Python exceptions relevant to `when`: pendulum's `ParserError` (the only
exception `when` catches) and the builtin `Exception` raised in `parse_t`'s
final branch. -/
inductive PyError
  | parserError (msg : String)
  | exception (msg : String)
deriving DecidableEq

/-- The final `else` branch of `parse_t` applied to the outcome of
`pendulum.parse`: a `DateTime` is returned, any other parse result raises
`Exception("nope")`, and a `ParserError` raised inside `pendulum.parse`
propagates out of `parse_t`. -/
def fallbackResult (np : String → Except String PValue) (s : String) :
    Except PyError (Option ℚ) :=
  match np s with
  | .error msg => .error (.parserError msg)
  | .ok (.dt q) => .ok (some q)
  | .ok .other => .error (.exception "nope")

/-- Embedding of `when.main.parse_t`, parameterised by the external
natural-language parser `np` (`pendulum.parse`).  `if not t` covers both `None`
and the empty string; the three patterns are tried in the source's order, the
matched text is converted with `float(...)` (exact here) and divided by 1e3 or
1e6 for the 13- and 16-digit forms; everything else is delegated to `np`. -/
def parse_t (np : String → Except String PValue) (t : Option String) :
    Except PyError (Option ℚ) :=
  match t with
  | none => .ok none
  | some s =>
    if s = "" then .ok none
    else if matchSeconds s.toList then .ok (some (parseDecimal s.toList))
    else if matchNDigits 13 s.toList then .ok (some (parseDecimal s.toList / 1000))
    else if matchNDigits 16 s.toList then .ok (some (parseDecimal s.toList / 1000000))
    else fallbackResult np s

/-- Days from 1970-01-01 to the civil date y-m-d in the proleptic Gregorian
calendar (valid for years ≥ 1), used to state what instant an epoch value
denotes. -/
def daysFromCivil (y m d : ℕ) : ℤ :=
  let y2 := if m ≤ 2 then y - 1 else y
  let era := y2 / 400
  let yoe := y2 % 400
  let doy := (153 * (if 2 < m then m - 3 else m + 9) + 2) / 5 + (d - 1)
  let doe := yoe * 365 + yoe / 4 - yoe / 100 + doy
  (era : ℤ) * 146097 + (doe : ℤ) - 719468

/-- The UTC instant y-m-d h:mi:s.μ as an exact epoch timestamp in seconds. -/
def epochRat (y m d h mi s μ : ℕ) : ℚ :=
  ((daysFromCivil y m d * 86400 + h * 3600 + mi * 60 + s : ℤ) : ℚ) + (μ : ℚ) / 1000000

theorem parse_t_seconds (np : String → Except String PValue) (s : String)
    (h0 : ¬ s = "") (h1 : matchSeconds s.toList = true) :
    parse_t np (some s) = .ok (some (parseDecimal s.toList)) := by
  simp [parse_t, h0, show matchSeconds s.data = true from h1]

theorem parse_t_ms (np : String → Except String PValue) (s : String)
    (h0 : ¬ s = "") (h1 : matchSeconds s.toList = false) (h2 : matchNDigits 13 s.toList = true) :
    parse_t np (some s) = .ok (some (parseDecimal s.toList / 1000)) := by
  simp [parse_t, h0, show matchSeconds s.data = false from h1,
    show matchNDigits 13 s.data = true from h2]

theorem parse_t_us (np : String → Except String PValue) (s : String)
    (h0 : ¬ s = "") (h1 : matchSeconds s.toList = false) (h2 : matchNDigits 13 s.toList = false)
    (h3 : matchNDigits 16 s.toList = true) :
    parse_t np (some s) = .ok (some (parseDecimal s.toList / 1000000)) := by
  simp [parse_t, h0, show matchSeconds s.data = false from h1,
    show matchNDigits 13 s.data = false from h2, show matchNDigits 16 s.data = true from h3]

theorem parse_t_delegates (np : String → Except String PValue) (s : String)
    (h0 : ¬ s = "") (h1 : matchSeconds s.toList = false) (h2 : matchNDigits 13 s.toList = false)
    (h3 : matchNDigits 16 s.toList = false) :
    parse_t np (some s) = fallbackResult np s := by
  simp [parse_t, h0, show matchSeconds s.data = false from h1,
    show matchNDigits 13 s.data = false from h2, show matchNDigits 16 s.data = false from h3]

theorem takeWhile_all {α : Type} (p : α → Bool) (l : List α) (h : l.all p = true) :
    l.takeWhile p = l ∧ l.dropWhile p = [] := by
  induction l with
  | nil => simp
  | cons x xs ih =>
    simp only [List.all_cons, Bool.and_eq_true] at h
    simp [List.takeWhile_cons, List.dropWhile_cons, h.1, ih h.2]

theorem matchSeconds_of_allDigits {l : List Char} (h : allDigits l = true) :
    matchSeconds l = (decide (1 ≤ l.length) && decide (l.length ≤ 10)) := by
  have ht := takeWhile_all Char.isDigit l h
  simp [matchSeconds, ht.1, ht.2]

/-! ### Substring occurrence

Used to state "the error message contains the offending text" and "the message
does not contain an internal exception class name". -/

def startsWithSeg : List Char → List Char → Bool
  | [], _ => true
  | _ :: _, [] => false
  | c :: n, d :: h => (c == d) && startsWithSeg n h

def containsSeg (n : List Char) : List Char → Bool
  | [] => n.isEmpty
  | d :: h => startsWithSeg n (d :: h) || containsSeg n h

theorem startsWithSeg_iff (n l : List Char) :
    startsWithSeg n l = true ↔ ∃ rest, l = n ++ rest := by
  induction n generalizing l with
  | nil => simp [startsWithSeg]
  | cons c n ih =>
    cases l with
    | nil => simp [startsWithSeg]
    | cons d h =>
      simp only [startsWithSeg, Bool.and_eq_true, beq_iff_eq]
      constructor
      · rintro ⟨rfl, hs⟩
        obtain ⟨rest, rfl⟩ := (ih h).mp hs
        exact ⟨rest, rfl⟩
      · rintro ⟨rest, heq⟩
        injection heq with h1 h2
        subst h1
        exact ⟨rfl, (ih h).mpr ⟨rest, h2⟩⟩

theorem containsSeg_of_startsWithSeg {n l : List Char} (h : startsWithSeg n l = true) :
    containsSeg n l = true := by
  cases l with
  | nil =>
    cases n with
    | nil => rfl
    | cons c m => simp [startsWithSeg] at h
  | cons d t => simp [containsSeg, h]

theorem containsSeg_cons {n h : List Char} (d : Char) (hc : containsSeg n h = true) :
    containsSeg n (d :: h) = true := by
  simp [containsSeg, hc]

theorem containsSeg_iff (n l : List Char) :
    containsSeg n l = true ↔ ∃ pre post, l = pre ++ n ++ post := by
  induction l with
  | nil =>
    constructor
    · intro h
      have hn : n = [] := by
        cases n with
        | nil => rfl
        | cons c m => simp [containsSeg] at h
      exact ⟨[], [], by simp [hn]⟩
    · rintro ⟨pre, post, heq⟩
      have h2 : pre = [] ∧ n = [] ∧ post = [] := by
        have := heq.symm
        simpa [List.append_eq_nil] using this
      simp [containsSeg, h2.2.1]
  | cons d h ih =>
    simp only [containsSeg, Bool.or_eq_true, startsWithSeg_iff, ih]
    constructor
    · rintro (⟨rest, heq⟩ | ⟨pre, post, heq⟩)
      · exact ⟨[], rest, by simp [heq]⟩
      · exact ⟨d :: pre, post, by simp [heq]⟩
    · rintro ⟨pre, post, heq⟩
      cases pre with
      | nil =>
        left
        exact ⟨post, by simpa using heq⟩
      | cons p ps =>
        right
        injection heq with h1 h2
        exact ⟨ps, post, h2⟩

theorem startsWithSeg_append_split (X : List Char) (n Y : List Char)
    (h : startsWithSeg n (X ++ Y) = true) :
    startsWithSeg n X = true ∨ ∃ n2, n = X ++ n2 ∧ startsWithSeg n2 Y = true := by
  induction X generalizing n with
  | nil => exact Or.inr ⟨n, rfl, by simpa using h⟩
  | cons x X ih =>
    cases n with
    | nil => exact Or.inl rfl
    | cons c n =>
      rw [List.cons_append] at h
      simp only [startsWithSeg, Bool.and_eq_true, beq_iff_eq] at h
      obtain ⟨rfl, hs⟩ := h
      rcases ih n hs with h1 | ⟨n2, rfl, h2⟩
      · left
        show ((c == c) && startsWithSeg n X) = true
        simp [h1]
      · right
        exact ⟨n2, rfl, h2⟩

theorem containsSeg_append_split (n X Y : List Char)
    (h : containsSeg n (X ++ Y) = true) :
    containsSeg n X = true ∨ containsSeg n Y = true ∨
      ∃ n1 n2 pre, n = n1 ++ n2 ∧ n1 ≠ [] ∧ n2 ≠ [] ∧ X = pre ++ n1 ∧
        startsWithSeg n2 Y = true := by
  induction X with
  | nil => exact Or.inr (Or.inl (by simpa using h))
  | cons x X ih =>
    rw [List.cons_append] at h
    simp only [containsSeg, Bool.or_eq_true] at h
    rcases h with hA | hB
    · rw [← List.cons_append] at hA
      rcases startsWithSeg_append_split (x :: X) n Y hA with h1 | ⟨n2, heq, h2⟩
      · exact Or.inl (containsSeg_of_startsWithSeg h1)
      · cases n2 with
        | nil =>
          left
          rw [List.append_nil] at heq
          subst heq
          exact containsSeg_of_startsWithSeg ((startsWithSeg_iff _ _).mpr ⟨[], by simp⟩)
        | cons c n2' =>
          right; right
          exact ⟨x :: X, c :: n2', [], heq, by simp, by simp, by simp, h2⟩
    · rcases ih hB with h1 | h1 | ⟨n1, n2, pre, heq, hn1, hn2, hX, hsw⟩
      · exact Or.inl (containsSeg_cons x h1)
      · exact Or.inr (Or.inl h1)
      · exact Or.inr (Or.inr ⟨n1, n2, x :: pre, heq, hn1, hn2, by rw [hX, List.cons_append], hsw⟩)

theorem mem_of_getLast_eq {α : Type} {l : List α} {c : α} (h : l.getLast? = some c) : c ∈ l := by
  induction l with
  | nil => simp at h
  | cons x xs ih =>
    cases xs with
    | nil =>
      simp only [List.getLast?_singleton, Option.some.injEq] at h
      simp [h]
    | cons y ys =>
      rw [List.getLast?_cons_cons] at h
      exact List.mem_cons_of_mem x (ih h)

/-! ### difflib: `SequenceMatcher.ratio` and `get_close_matches`

`display_bad_timezone_help` calls `difflib.get_close_matches(tz,
available_timezones)` with the library defaults `n = 3` and `cutoff = 0.6`.
The standard library's algorithm is embedded: `flm` is
`SequenceMatcher.find_longest_match` with no junk (inputs are short timezone
names, so autojunk never triggers and the junk-extension loops are no-ops),
`mTotal` the total size of the matching blocks, `ratio` the similarity
`2*M/(len(a)+len(b))` (1.0 for two empty sequences, per `_calculate_ratio`).
difflib admits a candidate when `real_quick_ratio() >= cutoff and
quick_ratio() >= cutoff and ratio() >= cutoff`; the first two are upper bounds
of `ratio()`, so the filter is equivalent to `ratio() >= cutoff`.
`heapq.nlargest(n, result)` on the `(ratio, candidate)` pairs equals
`sorted(result, reverse=True)[:n]`: a stable sort, descending in the
lexicographic order on the pair. -/

/-- Ascending positions of character `c` within the window `[blo, bhi)` of
`b`: difflib's `b2j[a[i]]` combined with the `j < blo` / `j >= bhi` loop
guards. -/
def occs (b : List Char) (c : Char) (blo bhi : ℕ) : List ℕ :=
  (List.range b.length).filter (fun j =>
    decide (blo ≤ j) && decide (j < bhi) && (b.getD j ' ' == c))

/-- One `i`-iteration of `find_longest_match`'s dynamic programme: `j2len`
maps `j` to the length of the common run ending at `(i-1, j)`; the fold builds
`newj2len` and updates `best = (besti, bestj, bestsize)` exactly as the Python
inner loop does (`k = j2len.get(j-1, 0) + 1`, best replaced only when
`k > bestsize`). -/
def flmRow (j2len : ℕ → ℕ) (i : ℕ) (js : List ℕ) (best : ℕ × ℕ × ℕ) :
    (ℕ → ℕ) × (ℕ × ℕ × ℕ) :=
  js.foldl
    (fun acc j =>
      let k := (if j = 0 then 0 else j2len (j - 1)) + 1
      ((fun j' => if j' = j then k else acc.1 j'),
        if acc.2.2.2 < k then (i + 1 - k, j + 1 - k, k) else acc.2))
    ((fun _ => 0), best)

/-- `find_longest_match` over the windows `[alo, ahi)` of `a` and `[blo, bhi)`
of `b` (no junk), returning `(besti, bestj, bestsize)`. -/
def flm (a b : List Char) (alo ahi blo bhi : ℕ) : ℕ × ℕ × ℕ :=
  (((List.range (ahi - alo)).map (fun k => k + alo)).foldl
    (fun acc i => flmRow acc.1 i (occs b (a.getD i ' ') blo bhi) acc.2)
    ((fun _ => 0), (alo, blo, 0))).2

/-- Total size of the matching blocks — `sum(b.size for b in
get_matching_blocks())` — via the standard recursive decomposition around each
longest match.  The windows strictly shrink at every recursive call, so the
fuel `a.length + b.length + 1` supplied by `mTotal` always suffices. -/
def mTotalAux (a b : List Char) : ℕ → ℕ → ℕ → ℕ → ℕ → ℕ
  | 0, _, _, _, _ => 0
  | fuel + 1, alo, ahi, blo, bhi =>
    let r := flm a b alo ahi blo bhi
    if r.2.2 = 0 then 0
    else
      mTotalAux a b fuel alo r.1 blo r.2.1 + r.2.2 +
        mTotalAux a b fuel (r.1 + r.2.2) ahi (r.2.1 + r.2.2) bhi

def mTotal (a b : List Char) : ℕ :=
  mTotalAux a b (a.length + b.length + 1) 0 a.length 0 b.length

/-- `SequenceMatcher(None, a, b).ratio()` as an exact rational. -/
def ratio (a b : List Char) : ℚ :=
  if a.length + b.length = 0 then 1 else 2 * (mTotal a b : ℚ) / (a.length + b.length)

/-- Insertion step of a stable descending sort by `key`: `x` goes before the
first element whose key is not strictly greater, so elements with equal keys
keep their original relative order, as Python's stable
`sorted(..., reverse=True)` does. -/
def insertDescBy {α β : Type} [LinearOrder β] (key : α → β) (x : α) : List α → List α
  | [] => [x]
  | y :: ys => if key x < key y then y :: insertDescBy key x ys else x :: y :: ys

def sortDescBy {α β : Type} [LinearOrder β] (key : α → β) : List α → List α
  | [] => []
  | x :: xs => insertDescBy key x (sortDescBy key xs)

theorem insertDescBy_perm {α β : Type} [LinearOrder β] (key : α → β) (x : α) (l : List α) :
    (insertDescBy key x l).Perm (x :: l) := by
  induction l with
  | nil => exact List.Perm.refl _
  | cons y ys ih =>
    by_cases h : key x < key y
    · simp only [insertDescBy, if_pos h]
      exact (ih.cons y).trans (List.Perm.swap x y ys)
    · simp only [insertDescBy, if_neg h]
      exact List.Perm.refl _

theorem sortDescBy_perm {α β : Type} [LinearOrder β] (key : α → β) (l : List α) :
    (sortDescBy key l).Perm l := by
  induction l with
  | nil => exact List.Perm.refl _
  | cons x xs ih =>
    exact (insertDescBy_perm key x (sortDescBy key xs)).trans (ih.cons x)

theorem pairwise_insertDescBy {α β : Type} [LinearOrder β] (key : α → β) (x : α) (l : List α)
    (h : l.Pairwise (fun a b => key b ≤ key a)) :
    (insertDescBy key x l).Pairwise (fun a b => key b ≤ key a) := by
  induction l with
  | nil => simp [insertDescBy]
  | cons y ys ih =>
    rcases List.pairwise_cons.mp h with ⟨hy, hys⟩
    by_cases hxy : key x < key y
    · simp only [insertDescBy, if_pos hxy]
      rw [List.pairwise_cons]
      refine ⟨?_, ih hys⟩
      intro z hz
      rcases List.mem_cons.mp ((insertDescBy_perm key x ys).mem_iff.mp hz) with rfl | hz2
      · exact le_of_lt hxy
      · exact hy z hz2
    · simp only [insertDescBy, if_neg hxy]
      rw [List.pairwise_cons]
      push_neg at hxy
      refine ⟨?_, h⟩
      intro z hz
      rcases List.mem_cons.mp hz with rfl | hz2
      · exact hxy
      · exact le_trans (hy z hz2) hxy

theorem sortDescBy_pairwise {α β : Type} [LinearOrder β] (key : α → β) (l : List α) :
    (sortDescBy key l).Pairwise (fun a b => key b ≤ key a) := by
  induction l with
  | nil => simp [sortDescBy]
  | cons x xs ih => exact pairwise_insertDescBy key x _ ih

/-- `difflib.get_close_matches(word, possibilities)` with the defaults
`n = 3`, `cutoff = 0.6`: keep the candidates whose ratio reaches the cutoff,
pick the 3 largest `(ratio, candidate)` pairs in descending lexicographic pair
order (stable), and return the candidates. -/
def getCloseMatches (word : String) (possibilities : List String) : List String :=
  let result := possibilities.filterMap (fun x =>
    if (3 : ℚ) / 5 ≤ ratio x.toList word.toList then some (ratio x.toList word.toList, x)
    else none)
  ((sortDescBy (fun p : ℚ × String => toLex p) result).take 3).map Prod.snd

/-! ### Timezone resolution, the report, and the `when` command -/

/-- Message of the `ParserError` raised by `pendulum.parse` on text it cannot
parse.  Modelled from the spec: the natural-language fallback parser "fails
with `ParseError(text)`" and "the error message surfaced to the user must
include the original offending text"; pendulum 2.x formats the message as
below, and the repository's test suite (tests/test_cli.py, test_parse_error)
pins that the surfaced message contains the offending text and does not
contain the string "ParserError". -/
def nlParseMsg (t : String) : String := "Unable to parse string [" ++ t ++ "]"

/-- The message `display_bad_timezone_help` builds: for each bad name,
"Unknown timezone <tz>." plus, when there are close matches, " Maybe you
meant:" and one indented line per match, then a newline. -/
def badTimezoneMsg (available : List String) (bad : List String) : String :=
  String.join (bad.map (fun tz =>
    "Unknown timezone " ++ tz ++ "." ++
      (match getCloseMatches tz available with
       | [] => ""
       | ms => " Maybe you meant:" ++ String.join (ms.map (fun m => "\n  " ++ m))) ++ "\n"))

/-- Embedding of `when.main.display_bad_timezone_help`: with no bad timezones
the function returns without printing (`none`); otherwise it prints the
diagnostic message to the console it was handed. -/
def displayBadTimezoneHelp (available : List String) (bad : List String) : Option String :=
  if bad = [] then none else some (badTimezoneMsg available bad)

/-- The set `{pendulum.timezone(tz) for tz in good}` plus the conditional
`add(UTC)` / `add(local_timezone())`.  pendulum caches timezone objects by
identifier, so set membership deduplicates by identifier; a Python set carries
no order and no claim depends on the pre-sort order, so the set is modelled as
a deduplicated list of names. -/
def buildDisplayTimezones (good : List String) (addUtc addLocal : Bool)
    (localName : String) : List String :=
  (good ++ (if addUtc then ["UTC"] else []) ++ (if addLocal then [localName] else [])).dedup

/-- The `sorted(display_timezones, key=lambda tz: tz.utcoffset(now),
reverse=True)` step: `db tz` abstracts the timezone's UTC offset at `now`, in
seconds. -/
def whenDisplayTimezones (db : String → ℤ) (good : List String) (addUtc addLocal : Bool)
    (localName : String) : List String :=
  sortDescBy db (buildDisplayTimezones good addUtc addLocal localName)

/-- Python `int(...)` on a number: truncation toward zero. -/
def qtrunc (q : ℚ) : ℤ := if 0 ≤ q then ⌊q⌋ else ⌈q⌉

/-- The suffix of the relative-time row:
`'ago' if diff.total_seconds() < 0 else 'from now'`, where
`diff = now.diff(target, abs=False)` is the signed period from `now` to
`target`, with total seconds `target - now`. -/
def relSuffix (target now : ℚ) : String :=
  if target - now < 0 then "ago" else "from now"

/-- The relative-time row text
`f"{precisedelta(int(diff.total_seconds()))} {'ago' if ... else 'from now'}"`,
with humanize's `precisedelta` abstracted as `pdelta`. -/
def relText (pdelta : ℤ → String) (target now : ℚ) : String :=
  pdelta (qtrunc (target - now)) ++ " " ++ relSuffix target now

/-- The content of `RichTime.__rich__`, structurally: the optional
relative-time metadata row, the three epoch metadata rows, and the
per-timezone table's columns and rows.  `fmt tz ts` abstracts
`ts.astimezone(timezone).to_datetime_string()`; `tsStr` abstracts
`f"{target.timestamp()}"`. -/
structure Report where
  relative : Option String
  epoch : List (String × String)
  columns : List String
  rows : List (List String)
deriving DecidableEq

def buildRichTime (pdelta : ℤ → String) (fmt : String → ℚ → String) (tsStr : ℚ → String)
    (target now : ℚ) (tzs : List String) : Report :=
  { relative := if target ≠ now then some (relText pdelta target now) else none
    epoch := [("Epoch Timestamp (s)", tsStr target),
              ("Epoch Timestamp (ms)", toString (qtrunc (target * 1000))),
              ("Epoch Timestamp (µs)", toString (qtrunc (target * 1000000)))]
    columns := if target = now then ["Timezone", "Now"] else ["Timezone", "Target", "Now"]
    rows := if target = now then tzs.map (fun tz => [tz, fmt tz now])
            else tzs.map (fun tz => [tz, fmt tz target, fmt tz now]) }

/-- A message printed by `when` on stdout: the bad-timezone diagnostic, or the
`RichTime` report (identified by the constituents `__rich__` renders). -/
inductive StdoutItem
  | diag (msg : String)
  | report (target now : ℚ) (timezones : List String)
deriving DecidableEq

structure CliResult where
  exitCode : ℕ
  stdout : List StdoutItem
  stderr : List String
deriving DecidableEq

/-- The report path of the `when` command (the `--clock` loop aside): parse
the time argument, catching only `ParserError` (whose message is printed to
stderr, followed by `Exit(1)`); fall back to `now` when the argument was
absent or empty (`parse_t(t) or now`); partition the requested timezones by
membership in the available set; print the bad-timezone diagnostic to stdout
when there are bad names; build the deduplicated, offset-sorted timezone list;
and print the report to stdout, exiting 0.  A non-`ParserError` exception (the
`Exception("nope")` of `parse_t`) is not caught and propagates (`.error`). -/
def whenRun (np : String → Except String PValue) (db : String → ℤ) (localName : String)
    (now : ℚ) (t : Option String) (timezones : List String) (available : List String)
    (addUtc addLocal : Bool) : Except PyError CliResult :=
  match parse_t np t with
  | .error (.parserError msg) => .ok ⟨1, [], [msg]⟩
  | .error e => .error e
  | .ok r =>
    let target := r.getD now
    let pb := partition timezones (fun tz => available.contains tz)
    let diagOut := match displayBadTimezoneHelp available pb.2 with
      | none => []
      | some m => [StdoutItem.diag m]
    .ok ⟨0, diagOut ++ [StdoutItem.report target now
      (whenDisplayTimezones db pb.1 addUtc addLocal localName)], []⟩

/-! ### Clock renderer geometry (`Clock.__rich_console__`, `draw_hand`,
`fraction_to_clock_angle`)

`maxHeight` is the height handed to the renderer (`options.max_height`, the
spec's `grid_height` parameter of `render`); the drawn grid has
`size = maxHeight - 2` rows.  The float trigonometry is stated over `ℝ`;
Python's `round` (round-half-even) enters the endpoint statements only through
its defining property `|round x - x| ≤ 1/2`, taken as a hypothesis. -/

def clockSize (maxHeight : ℕ) : ℕ := maxHeight - 2

/-- `center = size // 2`. -/
def clockCenter (maxHeight : ℕ) : ℕ := clockSize maxHeight / 2

/-- `radius = center`. -/
def clockRadius (maxHeight : ℕ) : ℕ := clockCenter maxHeight

/-- Python `x % m` on numbers with a positive modulus: `x - m * floor(x/m)`. -/
def pymod (x m : ℚ) : ℚ := x - m * ⌊x / m⌋

/-- The hour hand's fraction
`(target.hour + target.minute / 60 + target.second / 3600) % 12 / 12`. -/
def hourFraction (h m s : ℕ) : ℚ :=
  pymod ((h : ℚ) + (m : ℚ) / 60 + (s : ℚ) / 3600) 12 / 12

/-- The minute hand's fraction `(target.minute + target.second / 60) / 60`. -/
def minuteFraction (m s : ℕ) : ℚ := ((m : ℚ) + (s : ℚ) / 60) / 60

/-- The second hand's fraction `target.second / 60`. -/
def secondFraction (s : ℕ) : ℚ := (s : ℚ) / 60

/-! ### Epoch-seconds string of a timestamp (the report's seconds row) -/

/-- Value of a little-endian digit list. -/
def valLE : List ℕ → ℕ
  | [] => 0
  | d :: ds => d + 10 * valLE ds

/-- Little-endian decimal digits of `n` (empty for 0); the fuel argument makes
the recursion structural, and `unaryDigits` supplies `n` itself, which always
suffices. -/
def unaryDigitsAux : ℕ → ℕ → List ℕ
  | 0, _ => []
  | _ + 1, 0 => []
  | fuel + 1, n + 1 => ((n + 1) % 10) :: unaryDigitsAux fuel ((n + 1) / 10)

def unaryDigits (n : ℕ) : List ℕ := unaryDigitsAux n n

def digitChar : ℕ → Char
  | 0 => '0'
  | 1 => '1'
  | 2 => '2'
  | 3 => '3'
  | 4 => '4'
  | 5 => '5'
  | 6 => '6'
  | 7 => '7'
  | 8 => '8'
  | 9 => '9'
  | _ => '0'

/-- Decimal rendering of a natural number ("0" for 0). -/
def natToDigits (n : ℕ) : List Char :=
  if n = 0 then ['0'] else ((unaryDigits n).map digitChar).reverse

/-- The six decimal digits of a microsecond fraction, left-padded with
zeros. -/
def fracDigits6 (f : ℕ) : List Char :=
  List.replicate (6 - (natToDigits f).length) '0' ++ natToDigits f

/-- Trailing zeros removed, keeping at least one digit. -/
def trimFrac (l : List Char) : List Char :=
  if (l.reverse.dropWhile (· == '0')).reverse = [] then ['0']
  else (l.reverse.dropWhile (· == '0')).reverse

/-- The report's epoch-seconds cell `f"{target.timestamp()}"` for a timestamp
of `μ` microseconds: Python's `str` of a float prints the integer part, a dot,
and the fractional digits with trailing zeros trimmed (at least one digit
remains).  For in-range microsecond timestamps this shortest-round-trip
rendering is the exact microsecond decimal; the float's sub-microsecond
representation error lies far below the millisecond precision the round-trip
claim is about. -/
def secondsStr (μ : ℕ) : String :=
  ⟨natToDigits (μ / 1000000) ++ '.' :: trimFrac (fracDigits6 (μ % 1000000))⟩

/-- Modelled from the spec: the natural-language fallback parser (the external
capability of section 4.3, pendulum.parse) rejects purely numeric strings —
section 4.2: numeric strings matching none of the three epoch patterns "fall
through to the natural-language parser, which should be expected to fail for
such input". -/
def nlRejectNumeric : String → Except String PValue := fun s =>
  if s.toList.all (fun c => c.isDigit || c == '.') then .error (nlParseMsg s)
  else .ok PValue.other

end When

open When


/-- C1: `parse_t` applies its rules in order: a null or empty string yields
null; a string fully matching `\d{1,10}(\.\d+)?` is interpreted as epoch
seconds (the fractional digits as sub-second precision); a string of exactly
13 digits as epoch milliseconds (divided by 1000); a string of exactly 16
digits as epoch microseconds (divided by 1,000,000); every other string — in
particular every pure-digit string of length 11, 12, 14, 15, or ≥ 17 — is
delegated to the natural-language fallback parser, never interpreted as an
epoch value.  `classify("0")` is 1970-01-01T00:00:00 UTC,
`classify("1645478952.985869")` is 2022-02-21T21:29:12.985869 UTC, and
`classify("1645478952985")` is the same instant at millisecond precision. -/
theorem c1_parse_t_classification :
    (∀ np, parse_t np none = .ok none ∧ parse_t np (some "") = .ok none) ∧
    (∀ np s, ¬ s = "" → matchSeconds s.toList = true →
      parse_t np (some s) = .ok (some (parseDecimal s.toList))) ∧
    (∀ np s, ¬ s = "" → matchSeconds s.toList = false → matchNDigits 13 s.toList = true →
      parse_t np (some s) = .ok (some (parseDecimal s.toList / 1000))) ∧
    (∀ np s, ¬ s = "" → matchSeconds s.toList = false → matchNDigits 13 s.toList = false →
      matchNDigits 16 s.toList = true →
      parse_t np (some s) = .ok (some (parseDecimal s.toList / 1000000))) ∧
    (∀ np s, ¬ s = "" → matchSeconds s.toList = false → matchNDigits 13 s.toList = false →
      matchNDigits 16 s.toList = false → parse_t np (some s) = fallbackResult np s) ∧
    (∀ np s, allDigits s.toList = true →
      (s.toList.length = 11 ∨ s.toList.length = 12 ∨ s.toList.length = 14 ∨
        s.toList.length = 15 ∨ 17 ≤ s.toList.length) →
      parse_t np (some s) = fallbackResult np s) ∧
    (∀ np, parse_t np (some "0") = .ok (some (epochRat 1970 1 1 0 0 0 0)) ∧
      parse_t np (some "1645478952.985869") =
        .ok (some (epochRat 2022 2 21 21 29 12 985869)) ∧
      parse_t np (some "1645478952985") =
        .ok (some (epochRat 2022 2 21 21 29 12 985000))) := by
  refine ⟨?_, parse_t_seconds, parse_t_ms, parse_t_us, parse_t_delegates, ?_, ?_⟩
  · intro np
    exact ⟨rfl, rfl⟩
  · intro np s hd hlen
    have hne : ¬ s = "" := by
      intro h
      have h0 : s.toList.length = 0 := by rw [h]; rfl
      rcases hlen with h | h | h | h | h <;> omega
    have h10 : matchSeconds s.toList = false := by
      have hgt : ¬ (s.toList.length ≤ 10) := by rcases hlen with h | h | h | h | h <;> omega
      rw [matchSeconds_of_allDigits hd, decide_eq_false hgt, Bool.and_false]
    have h13 : matchNDigits 13 s.toList = false := by
      have h : ¬ (s.toList.length = 13) := by rcases hlen with h | h | h | h | h <;> omega
      show (allDigits s.toList && decide (s.toList.length = 13)) = false
      rw [decide_eq_false h, Bool.and_false]
    have h16 : matchNDigits 16 s.toList = false := by
      have h : ¬ (s.toList.length = 16) := by rcases hlen with h | h | h | h | h <;> omega
      show (allDigits s.toList && decide (s.toList.length = 16)) = false
      rw [decide_eq_false h, Bool.and_false]
    exact parse_t_delegates np s hne h10 h13 h16
  · intro np
    refine ⟨?_, ?_, ?_⟩
    · rw [parse_t_seconds np "0" (by decide) (by decide)]
      have h : parseDecimal "0".toList = epochRat 1970 1 1 0 0 0 0 := by
        have ht : "0".toList.takeWhile Char.isDigit = "0".toList := by decide
        have hd : "0".toList.dropWhile Char.isDigit = [] := by decide
        have hn : natOfDigits "0".toList = 0 := by decide
        have hdays : daysFromCivil 1970 1 1 = 0 := by decide
        simp only [parseDecimal, ht, hd, hn, epochRat, hdays]
        push_cast
        norm_num
      rw [h]
    · rw [parse_t_seconds np "1645478952.985869" (by decide) (by decide)]
      have h : parseDecimal "1645478952.985869".toList = epochRat 2022 2 21 21 29 12 985869 := by
        have ht : "1645478952.985869".toList.takeWhile Char.isDigit = "1645478952".toList := by
          decide
        have hd : "1645478952.985869".toList.dropWhile Char.isDigit = '.' :: "985869".toList := by
          decide
        have hn1 : natOfDigits "1645478952".toList = 1645478952 := by decide
        have hn2 : natOfDigits "985869".toList = 985869 := by decide
        have hlen : "985869".toList.length = 6 := by decide
        have hdays : daysFromCivil 2022 2 21 = 19044 := by decide
        simp only [parseDecimal, ht, hd, fracOfDigits, hn1, hn2, hlen, epochRat, hdays]
        push_cast
        norm_num
      rw [h]
    · rw [parse_t_ms np "1645478952985" (by decide) (by decide) (by decide)]
      have h : parseDecimal "1645478952985".toList / 1000 =
          epochRat 2022 2 21 21 29 12 985000 := by
        have ht : "1645478952985".toList.takeWhile Char.isDigit = "1645478952985".toList := by
          decide
        have hd : "1645478952985".toList.dropWhile Char.isDigit = [] := by decide
        have hn : natOfDigits "1645478952985".toList = 1645478952985 := by decide
        have hdays : daysFromCivil 2022 2 21 = 19044 := by decide
        simp only [parseDecimal, ht, hd, hn, epochRat, hdays]
        push_cast
        norm_num
      rw [h]

/-- C1 witness: the classifier's branches exercised at concrete inputs — a
fractional seconds string, an 11-digit string (delegated), and a 13-digit
string. -/
theorem c1_parse_t_classification_witness :
    parse_t (fun _ => .ok PValue.other) (some "0.5") = .ok (some (parseDecimal "0.5".toList)) ∧
    parse_t (fun _ => .ok PValue.other) (some "12345678901") =
      fallbackResult (fun _ => .ok PValue.other) "12345678901" ∧
    parse_t (fun _ => .ok PValue.other) (some "1645478952985") =
      .ok (some (parseDecimal "1645478952985".toList / 1000)) :=
  ⟨c1_parse_t_classification.2.1 (fun _ => .ok PValue.other) "0.5" (by decide) (by decide),
   c1_parse_t_classification.2.2.2.2.2.1 (fun _ => .ok PValue.other) "12345678901"
     (by decide) (by decide),
   c1_parse_t_classification.2.2.1 (fun _ => .ok PValue.other) "1645478952985"
     (by decide) (by decide) (by decide)⟩

/-- C7: for every finite input list and boolean predicate, `partition` returns
`(left, right)` where every element of `left` satisfies the predicate, every
element of `right` does not, both outputs are sublists of the input (hence
preserve its relative order), the lengths add up to the input length, and
`left ++ right` is a permutation of the input (so the multiset union is the
input's multiset; an empty input or one-sided predicate yields empty lists as
degenerate instances). -/
theorem c7_partition_spec {α : Type} (items : List α) (p : α → Bool) :
    (∀ x ∈ (partition items p).1, p x = true) ∧
    (∀ x ∈ (partition items p).2, p x = false) ∧
    (partition items p).1.Sublist items ∧
    (partition items p).2.Sublist items ∧
    (partition items p).1.length + (partition items p).2.length = items.length ∧
    ((partition items p).1 ++ (partition items p).2).Perm items := by
  rw [partition_eq_filter]
  refine ⟨?_, ?_, ?_, ?_, ?_, ?_⟩
  · intro x hx
    exact (List.mem_filter.mp hx).2
  · intro x hx
    have := (List.mem_filter.mp hx).2
    simpa using this
  · exact List.filter_sublist _
  · exact List.filter_sublist _
  · have h := (List.filter_append_perm p items).length_eq
    simpa using h
  · exact List.filter_append_perm p items

/-- C7 witness: the partition properties evaluated at a concrete input. -/
theorem c7_partition_spec_witness :
    (∀ x ∈ (partition [1, 2, 3, 4] (fun n => n % 2 == 0)).1, (fun n => n % 2 == 0) x = true) ∧
    (∀ x ∈ (partition [1, 2, 3, 4] (fun n => n % 2 == 0)).2, (fun n => n % 2 == 0) x = false) ∧
    (partition [1, 2, 3, 4] (fun n => n % 2 == 0)).1.Sublist [1, 2, 3, 4] ∧
    (partition [1, 2, 3, 4] (fun n => n % 2 == 0)).2.Sublist [1, 2, 3, 4] ∧
    (partition [1, 2, 3, 4] (fun n => n % 2 == 0)).1.length +
      (partition [1, 2, 3, 4] (fun n => n % 2 == 0)).2.length = 4 ∧
    ((partition [1, 2, 3, 4] (fun n => n % 2 == 0)).1 ++
      (partition [1, 2, 3, 4] (fun n => n % 2 == 0)).2).Perm [1, 2, 3, 4] :=
  c7_partition_spec [1, 2, 3, 4] (fun n => n % 2 == 0)

theorem closeMatchPairs_mem (word : String) (possibilities : List String) (p : ℚ × String)
    (hp : p ∈ possibilities.filterMap (fun x =>
      if (3 : ℚ) / 5 ≤ ratio x.toList word.toList then some (ratio x.toList word.toList, x)
      else none)) :
    p.1 = ratio p.2.toList word.toList ∧ p.2 ∈ possibilities ∧ (3 : ℚ) / 5 ≤ p.1 := by
  rcases List.mem_filterMap.mp hp with ⟨x, hx, heq⟩
  by_cases hc : (3 : ℚ) / 5 ≤ ratio x.toList word.toList
  · rw [if_pos hc] at heq
    obtain rfl := Option.some.inj heq
    exact ⟨rfl, hx, hc⟩
  · rw [if_neg hc] at heq
    exact absurd heq (by simp)

/-- C6 (amended): for every requested name (`word`) and corpus, the resolver's
`get_close_matches(word, corpus)` call returns at most 3 suggestions, each
drawn from the corpus with similarity ratio at least the 0.6 cutoff (the
cutoff is inclusive, not strict), ordered by descending `(ratio, candidate)`
lexicographic order — descending similarity, with similarity ties broken by
descending candidate string rather than corpus order.  The embedding is a
total function, so the resolver never raises. -/
theorem c6_get_close_matches_spec (word : String) (possibilities : List String) :
    (getCloseMatches word possibilities).length ≤ 3 ∧
    (∀ x ∈ getCloseMatches word possibilities,
      x ∈ possibilities ∧ (3 : ℚ) / 5 ≤ ratio x.toList word.toList) ∧
    (getCloseMatches word possibilities).Pairwise
      (fun x y =>
        toLex (ratio y.toList word.toList, y) ≤ toLex (ratio x.toList word.toList, x)) ∧
    (getCloseMatches word possibilities).Pairwise
      (fun x y => ratio y.toList word.toList ≤ ratio x.toList word.toList) := by
  classical
  set key := fun p : ℚ × String => toLex p with hkey
  set result := possibilities.filterMap (fun x =>
    if (3 : ℚ) / 5 ≤ ratio x.toList word.toList then some (ratio x.toList word.toList, x)
    else none) with hresult
  have hmem : ∀ p ∈ (sortDescBy key result).take 3,
      p.1 = ratio p.2.toList word.toList ∧ p.2 ∈ possibilities ∧ (3 : ℚ) / 5 ≤ p.1 := by
    intro p hp
    exact closeMatchPairs_mem word possibilities p
      ((sortDescBy_perm key result).mem_iff.mp (List.mem_of_mem_take hp))
  have hgcm : getCloseMatches word possibilities =
      ((sortDescBy key result).take 3).map Prod.snd := rfl
  have hpair : ((sortDescBy key result).take 3).Pairwise
      (fun p q => toLex (ratio q.2.toList word.toList, q.2) ≤
        toLex (ratio p.2.toList word.toList, p.2)) := by
    refine List.Pairwise.imp_of_mem ?_
      (List.Pairwise.sublist (List.take_sublist 3 _) (sortDescBy_pairwise key result))
    intro p q hp hq hpq
    rcases hmem p hp with ⟨h1, _, _⟩
    rcases hmem q hq with ⟨h2, _, _⟩
    rw [← h1, ← h2]
    exact hpq
  refine ⟨?_, ?_, ?_, ?_⟩
  · rw [hgcm, List.length_map, List.length_take]
    exact min_le_left 3 _
  · intro x hx
    rw [hgcm] at hx
    rcases List.mem_map.mp hx with ⟨p, hp, rfl⟩
    rcases hmem p hp with ⟨h1, h2, h3⟩
    exact ⟨h2, h1 ▸ h3⟩
  · rw [hgcm, List.pairwise_map]
    exact hpair
  · rw [hgcm, List.pairwise_map]
    refine hpair.imp ?_
    intro a b h
    rcases (Prod.Lex.le_iff _ _).mp h with hlt | ⟨heq, _⟩
    · exact le_of_lt hlt
    · exact le_of_eq heq

/-- C6 witness: the bound applied at a concrete word and corpus. -/
theorem c6_get_close_matches_spec_witness :
    (getCloseMatches "abcde" ["abcaa", "abczz"]).length ≤ 3 :=
  (c6_get_close_matches_spec "abcde" ["abcaa", "abczz"]).1

/-- C6 counterexample: for the word "abcde" and corpus ["abcaa", "abczz"],
both candidates have similarity ratio exactly 3/5 = 0.6 — not strictly above
the 0.6 threshold — yet both are returned, and they are returned in the order
["abczz", "abcaa"], the reverse of the corpus order (ties are broken by
descending candidate string), refuting both the strict-threshold part and the
corpus-order tie-break part of the claim. -/
theorem c6_counterexample :
    getCloseMatches "abcde" ["abcaa", "abczz"] = ["abczz", "abcaa"] ∧
    ratio "abcaa".toList "abcde".toList = 3 / 5 ∧
    ratio "abczz".toList "abcde".toList = 3 / 5 := by
  have hm1 : mTotal "abcaa".toList "abcde".toList = 3 := by decide
  have hm2 : mTotal "abczz".toList "abcde".toList = 3 := by decide
  have hl1 : "abcaa".toList.length = 5 := by decide
  have hl2 : "abczz".toList.length = 5 := by decide
  have hl3 : "abcde".toList.length = 5 := by decide
  have hr1 : ratio "abcaa".toList "abcde".toList = 3 / 5 := by
    simp only [ratio, hm1, hl1, hl3]
    norm_num
  have hr2 : ratio "abczz".toList "abcde".toList = 3 / 5 := by
    simp only [ratio, hm2, hl2, hl3]
    norm_num
  refine ⟨?_, hr1, hr2⟩
  have hstr : ("abcaa" : String) < "abczz" := by
    rw [String.lt_iff_toList_lt]
    decide
  have hsort : sortDescBy (fun p : ℚ × String => toLex p)
      [((3 : ℚ) / 5, "abcaa"), ((3 : ℚ) / 5, "abczz")] =
      [((3 : ℚ) / 5, "abczz"), ((3 : ℚ) / 5, "abcaa")] := by
    simp only [sortDescBy, insertDescBy]
    rw [if_pos (show toLex ((3 : ℚ) / 5, ("abcaa" : String)) < toLex ((3 : ℚ) / 5, ("abczz" : String)) from
      (Prod.Lex.lt_iff ((3 : ℚ) / 5, ("abcaa" : String)) ((3 : ℚ) / 5, ("abczz" : String))).mpr
        (Or.inr ⟨rfl, hstr⟩))]
  simp only [getCloseMatches, List.filterMap_cons, List.filterMap_nil, hr1, hr2,
    if_pos (le_refl ((3 : ℚ) / 5))]
  rw [hsort]
  rfl

theorem nlParseMsg_toList (t : String) :
    (nlParseMsg t).toList =
      "Unable to parse string [".toList ++ (t.toList ++ "]".toList) := by
  show (nlParseMsg t).data = _
  simp [nlParseMsg, String.data_append]

theorem nlParseMsg_contains (t : String) :
    containsSeg t.toList (nlParseMsg t).toList = true := by
  rw [containsSeg_iff]
  exact ⟨"Unable to parse string [".toList, "]".toList, by rw [nlParseMsg_toList]; simp⟩

theorem nlParseMsg_no_leak (t : String)
    (h : containsSeg "ParserError".toList t.toList = false) :
    containsSeg "ParserError".toList (nlParseMsg t).toList = false := by
  by_contra hcon
  rw [Bool.not_eq_false] at hcon
  rw [nlParseMsg_toList] at hcon
  rcases containsSeg_append_split _ _ _ hcon with h1 | h1 | ⟨n1, n2, pre, heq, hn1, hn2, hX, hsw⟩
  · exact absurd h1 (by decide)
  · rcases containsSeg_append_split _ _ _ h1 with h2 | h2 | ⟨n1, n2, pre, heq, hn1, hn2, hX, hsw⟩
    · rw [h] at h2
      exact Bool.noConfusion h2
    · exact absurd h2 (by decide)
    · obtain ⟨c, n2', rfl⟩ : ∃ c n2', n2 = c :: n2' := by
        cases n2 with
        | nil => exact absurd rfl hn2
        | cons c n2' => exact ⟨c, n2', rfl⟩
      rcases (startsWithSeg_iff _ _).mp hsw with ⟨rest, hres⟩
      have h9 : ("]".toList : List Char) = [']'] := by decide
      rw [h9, List.cons_append] at hres
      injection hres with ha hb
      have hmemc : c ∈ ("ParserError".toList : List Char) := by
        rw [heq]
        exact List.mem_append_right _ (List.mem_cons_self c n2')
      rw [← ha] at hmemc
      exact absurd hmemc (by decide)
  · have hlast : n1.getLast? = some '[' := by
      have hA : ("Unable to parse string [".toList : List Char).getLast? = some '[' := by decide
      rw [hX] at hA
      rwa [List.getLast?_append_of_ne_nil pre hn1] at hA
    have hmem : ('[' : Char) ∈ "ParserError".toList := by
      rw [heq]
      exact List.mem_append_left _ (mem_of_getLast_eq hlast)
    exact absurd hmem (by decide)

/-- C2 (amended): for every time argument that matches no epoch pattern and is
rejected by the natural-language parser, the process exits with code 1 and
prints to the error stream a message containing the original offending text;
the message does not contain the internal exception class name "ParserError"
unless the offending text itself contains that name (the message embeds the
text verbatim). -/
theorem c2_parse_failure (np : String → Except String PValue) (db : String → ℤ)
    (localName : String) (now : ℚ) (t : String) (timezones available : List String)
    (addUtc addLocal : Bool)
    (h0 : ¬ t = "") (h1 : matchSeconds t.toList = false)
    (h2 : matchNDigits 13 t.toList = false) (h3 : matchNDigits 16 t.toList = false)
    (hnp : np t = .error (nlParseMsg t)) :
    whenRun np db localName now (some t) timezones available addUtc addLocal =
      .ok ⟨1, [], [nlParseMsg t]⟩ ∧
    containsSeg t.toList (nlParseMsg t).toList = true ∧
    (containsSeg "ParserError".toList t.toList = false →
      containsSeg "ParserError".toList (nlParseMsg t).toList = false) := by
  refine ⟨?_, nlParseMsg_contains t, nlParseMsg_no_leak t⟩
  have hp := parse_t_delegates np t h0 h1 h2 h3
  simp only [whenRun, hp, fallbackResult, hnp]

/-- C2 witness: the repository test's own failing input "not a time": exit
code 1, the message on stderr, the text contained in it, no "ParserError" in
it. -/
theorem c2_parse_failure_witness :
    (whenRun (fun s => .error (nlParseMsg s)) (fun _ => 0) "Local" 0 (some "not a time")
      [] [] true true = .ok ⟨1, [], [nlParseMsg "not a time"]⟩ ∧
    containsSeg "not a time".toList (nlParseMsg "not a time").toList = true ∧
    (containsSeg "ParserError".toList "not a time".toList = false →
      containsSeg "ParserError".toList (nlParseMsg "not a time").toList = false)) ∧
    containsSeg "ParserError".toList (nlParseMsg "not a time").toList = false :=
  have h := c2_parse_failure (fun s => .error (nlParseMsg s)) (fun _ => 0) "Local" 0
    "not a time" [] [] true true (by decide) (by decide) (by decide) (by decide) rfl
  ⟨h, h.2.2 (by decide)⟩

/-- C2 counterexample: with offending text "ParserError" — rejected by the
natural-language parser — the run exits 1 with the message on stderr as
required, but the message does contain the string "ParserError" (it embeds the
user's own text), so the claim's "the message never contains an internal
exception class name" is false as stated. -/
theorem c2_counterexample :
    whenRun (fun s => .error (nlParseMsg s)) (fun _ => 0) "Local" 0 (some "ParserError")
      [] [] true true = .ok ⟨1, [], [nlParseMsg "ParserError"]⟩ ∧
    containsSeg "ParserError".toList (nlParseMsg "ParserError").toList = true := by
  constructor
  · have hp := parse_t_delegates (fun s => .error (nlParseMsg s)) "ParserError"
      (by decide) (by decide) (by decide) (by decide)
    simp only [whenRun, hp, fallbackResult]
  · decide

/-- C3 (code evidence): when the natural-language parser parses the text to a
value that is not a `DateTime` — as pendulum does for the ISO-8601 duration
"P1Y", which it parses to a `Duration` — `parse_t` raises the builtin
`Exception("nope")`: the surfaced message "nope" does not contain the
offending text, the exception is not a `ParserError`, and `when`'s
`except ParserError` handler does not catch it, so it escapes uncaught. -/
theorem c3_nope_exception :
    parse_t (fun s => if s = "P1Y" then .ok PValue.other else .error (nlParseMsg s))
      (some "P1Y") = .error (.exception "nope") ∧
    whenRun (fun s => if s = "P1Y" then .ok PValue.other else .error (nlParseMsg s))
      (fun _ => 0) "Local" 0 (some "P1Y") [] [] true true = .error (.exception "nope") ∧
    containsSeg "P1Y".toList "nope".toList = false := by
  have hp := parse_t_delegates
    (fun s => if s = "P1Y" then .ok PValue.other else .error (nlParseMsg s)) "P1Y"
    (by decide) (by decide) (by decide) (by decide)
  refine ⟨?_, ?_, by decide⟩
  · rw [hp]
    simp [fallbackResult]
  · simp only [whenRun, hp, fallbackResult]
    simp

/-- C10: on every successful run, the "Unknown timezone" diagnostic (with its
suggestions) goes to the standard output stream — not the error stream, which
stays empty — and precedes the report; when every requested name is valid no
diagnostic is emitted at all. -/
theorem c10_diagnostic_position (np : String → Except String PValue) (db : String → ℤ)
    (localName : String) (now : ℚ) (t : Option String) (timezones available : List String)
    (addUtc addLocal : Bool) (r : Option ℚ) (hp : parse_t np t = .ok r) :
    whenRun np db localName now t timezones available addUtc addLocal =
      .ok ⟨0,
        (if (partition timezones (fun tz => available.contains tz)).2 = []
         then []
         else [StdoutItem.diag (badTimezoneMsg available
                (partition timezones (fun tz => available.contains tz)).2)]) ++
          [StdoutItem.report (r.getD now) now
            (whenDisplayTimezones db (partition timezones (fun tz => available.contains tz)).1
              addUtc addLocal localName)],
        []⟩ := by
  simp only [whenRun, hp, displayBadTimezoneHelp]
  split_ifs with hb <;> simp

/-- C10 witness: a run with one invalid timezone — the diagnostic precedes the
report on stdout and stderr is empty. -/
theorem c10_diagnostic_position_witness :
    whenRun (fun _ => .ok (PValue.dt 0)) (fun _ => 0) "Local" 0 none ["Bad/Zone"] ["UTC"]
      true true =
      .ok ⟨0,
        (if (partition ["Bad/Zone"] (fun tz => (["UTC"] : List String).contains tz)).2 = []
         then []
         else [StdoutItem.diag (badTimezoneMsg ["UTC"]
                (partition ["Bad/Zone"] (fun tz => (["UTC"] : List String).contains tz)).2)]) ++
          [StdoutItem.report ((none : Option ℚ).getD 0) 0
            (whenDisplayTimezones (fun _ => 0)
              (partition ["Bad/Zone"] (fun tz => (["UTC"] : List String).contains tz)).1
              true true "Local")],
        []⟩ :=
  c10_diagnostic_position (fun _ => .ok (PValue.dt 0)) (fun _ => 0) "Local" 0 none
    ["Bad/Zone"] ["UTC"] true true none rfl

/-- C5: for every report built from `target` and `now`: when `target == now`
the relative-time row is omitted and the table has only the Timezone and Now
columns; when `target != now` both the relative-time row and the Target column
are present, and the relative-time text's suffix is "ago" exactly when
`target < now` and "from now" otherwise. -/
theorem c5_report_structure (pdelta : ℤ → String) (fmt : String → ℚ → String)
    (tsStr : ℚ → String) (target now : ℚ) (tzs : List String) :
    (target = now →
      (buildRichTime pdelta fmt tsStr target now tzs).relative = none ∧
      (buildRichTime pdelta fmt tsStr target now tzs).columns = ["Timezone", "Now"]) ∧
    (target ≠ now →
      (buildRichTime pdelta fmt tsStr target now tzs).relative =
        some (relText pdelta target now) ∧
      (buildRichTime pdelta fmt tsStr target now tzs).columns =
        ["Timezone", "Target", "Now"]) ∧
    (relSuffix target now = "ago" ↔ target < now) ∧
    (relSuffix target now = "from now" ↔ ¬ target < now) := by
  refine ⟨?_, ?_, ?_, ?_⟩
  · intro h
    constructor <;> simp [buildRichTime, h]
  · intro h
    constructor <;> simp [buildRichTime, h]
  · constructor
    · intro he
      by_cases hlt : target - now < 0
      · exact sub_neg.mp hlt
      · simp only [relSuffix, if_neg hlt] at he
        exact absurd he (by decide)
    · intro hlt
      simp only [relSuffix, if_pos (sub_neg.mpr hlt)]
  · constructor
    · intro he hc
      rw [← sub_neg] at hc
      simp only [relSuffix, if_pos hc] at he
      exact absurd he (by decide)
    · intro hlt
      have hc : ¬ (target - now < 0) := fun hx => hlt (sub_neg.mp hx)
      simp only [relSuffix, if_neg hc]

/-- C5 witness: a report with `target` one second before `now` has the
relative row and the Target column, and its suffix is "ago". -/
theorem c5_report_structure_witness :
    ((buildRichTime (fun _ => "1 second") (fun _ _ => "wall") (fun _ => "0.0") 0 1 []).relative =
      some (relText (fun _ => "1 second") 0 1) ∧
     (buildRichTime (fun _ => "1 second") (fun _ _ => "wall") (fun _ => "0.0") 0 1 []).columns =
      ["Timezone", "Target", "Now"]) ∧
    (relSuffix 0 1 = "ago" ↔ (0 : ℚ) < 1) :=
  ⟨(c5_report_structure (fun _ => "1 second") (fun _ _ => "wall") (fun _ => "0.0") 0 1 []).2.1
      (by norm_num),
   (c5_report_structure (fun _ => "1 second") (fun _ _ => "wall") (fun _ => "0.0") 0 1 []).2.2.1⟩

/-- C8: the displayed timezone list is deduplicated by identifier, contains
"UTC" when `--add-utc` is true and the local timezone when `--add-local` is
true (as well as every valid requested name), and is sorted by UTC offset at
`now` (`db`) in descending order. -/
theorem c8_timezone_list (db : String → ℤ) (good : List String) (addUtc addLocal : Bool)
    (localName : String) :
    (whenDisplayTimezones db good addUtc addLocal localName).Nodup ∧
    (addUtc = true → "UTC" ∈ whenDisplayTimezones db good addUtc addLocal localName) ∧
    (addLocal = true → localName ∈ whenDisplayTimezones db good addUtc addLocal localName) ∧
    (∀ tz ∈ good, tz ∈ whenDisplayTimezones db good addUtc addLocal localName) ∧
    (whenDisplayTimezones db good addUtc addLocal localName).Pairwise
      (fun a b => db b ≤ db a) := by
  have hperm := sortDescBy_perm db (buildDisplayTimezones good addUtc addLocal localName)
  have hmem : ∀ x, x ∈ whenDisplayTimezones db good addUtc addLocal localName ↔
      x ∈ good ++ (if addUtc then ["UTC"] else []) ++
        (if addLocal then [localName] else []) := by
    intro x
    have h1 : whenDisplayTimezones db good addUtc addLocal localName =
        sortDescBy db (buildDisplayTimezones good addUtc addLocal localName) := rfl
    have h2 : buildDisplayTimezones good addUtc addLocal localName =
        (good ++ (if addUtc then ["UTC"] else []) ++
          (if addLocal then [localName] else [])).dedup := rfl
    rw [h1, hperm.mem_iff, h2, List.mem_dedup]
  refine ⟨?_, ?_, ?_, ?_, sortDescBy_pairwise db _⟩
  · exact hperm.nodup_iff.mpr (List.nodup_dedup _)
  · intro h
    rw [hmem]
    simp [h]
  · intro h
    rw [hmem]
    simp [h]
  · intro tz htz
    rw [hmem]
    simp [htz]

/-- C8 witness: with one valid requested timezone and both defaults on, UTC
and the local timezone are both in the displayed list. -/
theorem c8_timezone_list_witness :
    "UTC" ∈ whenDisplayTimezones (fun _ => 0) ["America/Chicago"] true true "Local" ∧
    "Local" ∈ whenDisplayTimezones (fun _ => 0) ["America/Chicago"] true true "Local" ∧
    "America/Chicago" ∈ whenDisplayTimezones (fun _ => 0) ["America/Chicago"] true true "Local" :=
  ⟨(c8_timezone_list (fun _ => 0) ["America/Chicago"] true true "Local").2.1 rfl,
   (c8_timezone_list (fun _ => 0) ["America/Chicago"] true true "Local").2.2.1 rfl,
   (c8_timezone_list (fun _ => 0) ["America/Chicago"] true true "Local").2.2.2.1
     "America/Chicago" (by simp)⟩

theorem sqrt_close_to_radius (r u v a b : ℝ) (hr : 0 ≤ r) (huv : u ^ 2 + v ^ 2 = r ^ 2)
    (ha : |a - u| ≤ 1 / 2) (hb : |b - v| ≤ 1 / 2) :
    |Real.sqrt (a ^ 2 + b ^ 2) - r| ≤ 1 := by
  have e1 : Complex.abs (a + b * Complex.I) = Real.sqrt (a ^ 2 + b ^ 2) :=
    Complex.abs_add_mul_I a b
  have e2 : Complex.abs (u + v * Complex.I) = r := by
    rw [Complex.abs_add_mul_I, huv, Real.sqrt_sq hr]
  have key := Complex.abs.abs_abv_sub_le_abv_sub (a + b * Complex.I) (u + v * Complex.I)
  rw [e1, e2] at key
  have e3 : (a + b * Complex.I) - (u + v * Complex.I) =
      ((a - u : ℝ) : ℂ) + ((b - v : ℝ) : ℂ) * Complex.I := by
    push_cast
    ring
  rw [e3, Complex.abs_add_mul_I] at key
  have hb1 : Real.sqrt ((a - u) ^ 2 + (b - v) ^ 2) ≤ 1 := by
    rw [show (1 : ℝ) = Real.sqrt 1 from (Real.sqrt_one).symm]
    apply Real.sqrt_le_sqrt
    nlinarith [abs_nonneg (a - u), abs_nonneg (b - v), sq_abs (a - u), sq_abs (b - v)]
  exact le_trans key hb1

/-- C9: for every clock render of grid height S (the height handed to the
renderer, the spec's `grid_height` parameter): the effective radius is
`(S - 2) // 2` with the centre cell at `(radius, radius)`; each hand's angle
is its fraction times 2π minus π/2 (the code's `frac * TAU - TAU / 4`), with
fractions `hour = ((h + m/60 + s/3600) mod 12)/12`, `minute = (m + s/60)/60`,
`second = s/60`; at wall-clock 00:00:00 all three fractions are 0 (hands
straight up); and every hand endpoint
`(round(cos θ · r) + center, round(sin θ · r) + center)` lies at Euclidean
distance within ±1 of the radius from the centre. -/
theorem c9_clock_geometry :
    (∀ S : ℕ, clockRadius S = (S - 2) / 2 ∧ clockCenter S = clockRadius S) ∧
    (∀ h m s : ℕ,
      hourFraction h m s = pymod ((h : ℚ) + (m : ℚ) / 60 + (s : ℚ) / 3600) 12 / 12 ∧
      minuteFraction m s = ((m : ℚ) + (s : ℚ) / 60) / 60 ∧
      secondFraction s = (s : ℚ) / 60) ∧
    (∀ f : ℚ, (f : ℝ) * (2 * Real.pi) - (2 * Real.pi) / 4 =
      (f : ℝ) * (2 * Real.pi) - Real.pi / 2) ∧
    (hourFraction 0 0 0 = 0 ∧ minuteFraction 0 0 = 0 ∧ secondFraction 0 = 0) ∧
    (∀ (S : ℕ) (θ : ℝ) (a b : ℤ),
      |(a : ℝ) - Real.cos θ * (clockRadius S : ℝ)| ≤ 1 / 2 →
      |(b : ℝ) - Real.sin θ * (clockRadius S : ℝ)| ≤ 1 / 2 →
      |Real.sqrt ((a : ℝ) ^ 2 + (b : ℝ) ^ 2) - (clockRadius S : ℝ)| ≤ 1) := by
  refine ⟨?_, ?_, ?_, ?_, ?_⟩
  · intro S
    exact ⟨rfl, rfl⟩
  · intro h m s
    exact ⟨rfl, rfl, rfl⟩
  · intro f
    ring
  · refine ⟨?_, ?_, ?_⟩ <;> norm_num [hourFraction, minuteFraction, secondFraction, pymod]
  · intro S θ a b ha hb
    refine sqrt_close_to_radius (clockRadius S : ℝ) (Real.cos θ * clockRadius S)
      (Real.sin θ * clockRadius S) (a : ℝ) (b : ℝ) (Nat.cast_nonneg _) ?_ ha hb
    have hsc := Real.sin_sq_add_cos_sq θ
    nlinarith [hsc]

/-- C9 witness: at fraction 0 (angle −π/2, both hands of the 00:00:00 clock
face pointing straight up) with render height 12 (radius 5), the endpoint
(0, −5) satisfies the rounding bounds and lies within ±1 of the radius. -/
theorem c9_clock_geometry_witness :
    |((0 : ℤ) : ℝ) - Real.cos (-(Real.pi / 2)) * (clockRadius 12 : ℝ)| ≤ 1 / 2 ∧
    |((-5 : ℤ) : ℝ) - Real.sin (-(Real.pi / 2)) * (clockRadius 12 : ℝ)| ≤ 1 / 2 ∧
    |Real.sqrt (((0 : ℤ) : ℝ) ^ 2 + ((-5 : ℤ) : ℝ) ^ 2) - (clockRadius 12 : ℝ)| ≤ 1 := by
  have hr : (clockRadius 12 : ℝ) = 5 := by
    norm_num [clockRadius, clockCenter, clockSize]
  have ha : |((0 : ℤ) : ℝ) - Real.cos (-(Real.pi / 2)) * (clockRadius 12 : ℝ)| ≤ 1 / 2 := by
    rw [hr, Real.cos_neg, Real.cos_pi_div_two]
    norm_num
  have hb : |((-5 : ℤ) : ℝ) - Real.sin (-(Real.pi / 2)) * (clockRadius 12 : ℝ)| ≤ 1 / 2 := by
    rw [hr, Real.sin_neg, Real.sin_pi_div_two]
    norm_num
  exact ⟨ha, hb, c9_clock_geometry.2.2.2.2 12 (-(Real.pi / 2)) 0 (-5) ha hb⟩

theorem digitVal_digitChar (d : ℕ) (h : d < 10) : digitVal (digitChar d) = d := by
  interval_cases d <;> decide

theorem isDigit_digitChar (d : ℕ) (h : d < 10) : (digitChar d).isDigit = true := by
  interval_cases d <;> decide

theorem unaryDigitsAux_lt (fuel : ℕ) : ∀ n, n ≤ fuel → ∀ d ∈ unaryDigitsAux fuel n, d < 10 := by
  induction fuel with
  | zero =>
    intro n h d hd
    simp [unaryDigitsAux] at hd
  | succ fuel ih =>
    intro n h d hd
    match n with
    | 0 => simp [unaryDigitsAux] at hd
    | m + 1 =>
      simp only [unaryDigitsAux] at hd
      rcases List.mem_cons.mp hd with rfl | hd2
      · exact Nat.mod_lt _ (by norm_num)
      · have hle : (m + 1) / 10 ≤ fuel := by
          have := Nat.div_lt_self (Nat.succ_pos m) (show 1 < 10 by norm_num)
          omega
        exact ih _ hle d hd2

theorem unaryDigits_lt (n : ℕ) : ∀ d ∈ unaryDigits n, d < 10 :=
  unaryDigitsAux_lt n n le_rfl

theorem valLE_unaryDigitsAux (fuel : ℕ) : ∀ n, n ≤ fuel → valLE (unaryDigitsAux fuel n) = n := by
  induction fuel with
  | zero =>
    intro n h
    have h0 : n = 0 := by omega
    simp [h0, unaryDigitsAux, valLE]
  | succ fuel ih =>
    intro n h
    match n with
    | 0 => simp [unaryDigitsAux, valLE]
    | m + 1 =>
      have hle : (m + 1) / 10 ≤ fuel := by
        have := Nat.div_lt_self (Nat.succ_pos m) (show 1 < 10 by norm_num)
        omega
      simp only [unaryDigitsAux, valLE, ih _ hle]
      omega

theorem valLE_unaryDigits (n : ℕ) : valLE (unaryDigits n) = n :=
  valLE_unaryDigitsAux n n le_rfl

theorem unaryDigitsAux_length (fuel : ℕ) :
    ∀ n k, n ≤ fuel → n < 10 ^ k → (unaryDigitsAux fuel n).length ≤ k := by
  induction fuel with
  | zero =>
    intro n k h hk
    simp [unaryDigitsAux]
  | succ fuel ih =>
    intro n k h hk
    match n with
    | 0 => simp [unaryDigitsAux]
    | m + 1 =>
      match k with
      | 0 =>
        rw [pow_zero] at hk
        omega
      | k + 1 =>
        have hle : (m + 1) / 10 ≤ fuel := by
          have := Nat.div_lt_self (Nat.succ_pos m) (show 1 < 10 by norm_num)
          omega
        have hdiv : (m + 1) / 10 < 10 ^ k := by
          rw [Nat.div_lt_iff_lt_mul (by norm_num : 0 < 10)]
          calc m + 1 < 10 ^ (k + 1) := hk
            _ = 10 ^ k * 10 := by rw [pow_succ]
        simp only [unaryDigitsAux, List.length_cons]
        exact Nat.succ_le_succ (ih _ k hle hdiv)

theorem foldlDigits_init (l : List Char) (i : ℕ) :
    l.foldl (fun n c => 10 * n + digitVal c) i = i * 10 ^ l.length + natOfDigits l := by
  induction l generalizing i with
  | nil => simp [natOfDigits]
  | cons c cs ih =>
    rw [List.foldl_cons, ih (10 * i + digitVal c)]
    have h2 : natOfDigits (c :: cs) = digitVal c * 10 ^ cs.length + natOfDigits cs := by
      show List.foldl _ _ (c :: cs) = _
      rw [List.foldl_cons, ih (10 * 0 + digitVal c)]
      norm_num
    rw [h2, List.length_cons]
    ring

theorem natOfDigits_append (A B : List Char) :
    natOfDigits (A ++ B) = natOfDigits A * 10 ^ B.length + natOfDigits B := by
  show List.foldl _ 0 (A ++ B) = _
  rw [List.foldl_append]
  exact foldlDigits_init B (natOfDigits A)

theorem natOfDigits_replicate_zero (k : ℕ) :
    natOfDigits (List.replicate k '0') = 0 := by
  induction k with
  | zero => rfl
  | succ k ih =>
    rw [List.replicate_succ']
    rw [natOfDigits_append, ih]
    norm_num [show natOfDigits ['0'] = 0 from by decide]

theorem natToDigits_spec (n : ℕ) : natOfDigits (natToDigits n) = n := by
  by_cases h : n = 0
  · subst h
    decide
  · simp only [natToDigits, if_neg h]
    have key : ∀ l : List ℕ, (∀ d ∈ l, d < 10) →
        natOfDigits ((l.map digitChar).reverse) = valLE l := by
      intro l
      induction l with
      | nil =>
        intro _
        rfl
      | cons d ds ih =>
        intro hall
        rw [List.map_cons, List.reverse_cons, natOfDigits_append]
        rw [ih (fun x hx => hall x (List.mem_cons_of_mem _ hx))]
        have h1 : natOfDigits [digitChar d] = d := by
          show List.foldl _ 0 [digitChar d] = d
          simp [List.foldl_cons, digitVal_digitChar d (hall d (List.mem_cons_self _ _))]
        rw [h1]
        simp only [List.length_cons, List.length_nil, valLE]
        ring
    rw [key (unaryDigits n) (unaryDigits_lt n), valLE_unaryDigits]

theorem natToDigits_ne_nil (n : ℕ) : natToDigits n ≠ [] := by
  by_cases h : n = 0
  · subst h
    decide
  · simp only [natToDigits, if_neg h]
    obtain ⟨m, rfl⟩ := Nat.exists_eq_succ_of_ne_zero h
    simp [unaryDigits, unaryDigitsAux]

theorem natToDigits_length_pos (n : ℕ) : 1 ≤ (natToDigits n).length :=
  List.length_pos.mpr (natToDigits_ne_nil n)

theorem allDigits_natToDigits (n : ℕ) : allDigits (natToDigits n) = true := by
  by_cases h : n = 0
  · subst h
    decide
  · simp only [natToDigits, if_neg h, allDigits, List.all_eq_true]
    intro c hc
    rw [List.mem_reverse] at hc
    rcases List.mem_map.mp hc with ⟨d, hd, rfl⟩
    exact isDigit_digitChar d (unaryDigits_lt n d hd)

theorem natToDigits_length_le (k n : ℕ) (hk : 1 ≤ k) (h : n < 10 ^ k) :
    (natToDigits n).length ≤ k := by
  by_cases h0 : n = 0
  · subst h0
    simpa [natToDigits] using hk
  · simp only [natToDigits, if_neg h0, List.length_reverse, List.length_map]
    exact unaryDigitsAux_length n n k le_rfl h

theorem takeWhile_sat {α : Type} (p : α → Bool) (l : List α) :
    ∀ c ∈ l.takeWhile p, p c = true := by
  induction l with
  | nil => simp
  | cons x xs ih =>
    by_cases h : p x
    · intro c hc
      rw [List.takeWhile_cons_of_pos h] at hc
      rcases List.mem_cons.mp hc with rfl | hc2
      · exact h
      · exact ih c hc2
    · intro c hc
      rw [List.takeWhile_cons_of_neg h] at hc
      simp at hc

theorem takeWhile_append_sat {α : Type} (p : α → Bool) (A B : List α) (x : α)
    (hA : ∀ c ∈ A, p c = true) (hx : p x = false) :
    (A ++ x :: B).takeWhile p = A ∧ (A ++ x :: B).dropWhile p = x :: B := by
  induction A with
  | nil => simp [List.takeWhile_cons, List.dropWhile_cons, hx]
  | cons a as ih =>
    have ha := hA a (List.mem_cons_self _ _)
    have ih2 := ih (fun c hc => hA c (List.mem_cons_of_mem _ hc))
    simp [List.takeWhile_cons, List.dropWhile_cons, ha, ih2.1, ih2.2]

theorem fracOfDigits_append_zeros (l : List Char) (k : ℕ) :
    fracOfDigits (l ++ List.replicate k '0') = fracOfDigits l := by
  unfold fracOfDigits
  rw [natOfDigits_append, natOfDigits_replicate_zero, List.length_append,
    List.length_replicate]
  push_cast
  rw [pow_add]
  have h10 : ((10 : ℚ)) ^ k ≠ 0 := pow_ne_zero _ (by norm_num)
  field_simp
  ring

theorem trimFrac_decomp (l : List Char) :
    l = (l.reverse.dropWhile (· == '0')).reverse ++
      List.replicate (l.reverse.takeWhile (· == '0')).length '0' := by
  conv_lhs => rw [← List.reverse_reverse l]
  conv_lhs => rw [← List.takeWhile_append_dropWhile (· == '0') l.reverse]
  rw [List.reverse_append]
  congr 1
  have h1 : (l.reverse.takeWhile (· == '0')).reverse =
      List.replicate ((l.reverse.takeWhile (· == '0')).reverse).length '0' := by
    apply List.eq_replicate_length.mpr
    intro b hb
    rw [List.mem_reverse] at hb
    have := takeWhile_sat (· == '0') l.reverse b hb
    simpa using this
  rw [h1, List.length_reverse]

theorem trimFrac_ne_nil (l : List Char) : trimFrac l ≠ [] := by
  unfold trimFrac
  split_ifs with h
  · simp
  · exact h

theorem fracOfDigits_trimFrac (l : List Char) :
    fracOfDigits (trimFrac l) = fracOfDigits l := by
  unfold trimFrac
  split_ifs with h
  · have hd := trimFrac_decomp l
    rw [h, List.nil_append] at hd
    have h1 : fracOfDigits ['0'] = 0 := by
      unfold fracOfDigits
      norm_num [show natOfDigits ['0'] = 0 from by decide]
    have h2 : fracOfDigits l = 0 := by
      rw [hd]
      unfold fracOfDigits
      rw [natOfDigits_replicate_zero]
      norm_num
    rw [h1, h2]
  · conv_rhs => rw [trimFrac_decomp l]
    rw [fracOfDigits_append_zeros]

theorem allDigits_trimFrac (l : List Char) (h : allDigits l = true) :
    allDigits (trimFrac l) = true := by
  unfold trimFrac
  split_ifs with hc
  · decide
  · simp only [allDigits, List.all_eq_true] at h ⊢
    intro c hcmem
    rw [List.mem_reverse] at hcmem
    have h2 : c ∈ l.reverse := (List.dropWhile_sublist (· == '0')).subset hcmem
    exact h c (List.mem_reverse.mp h2)

theorem fracOfDigits_fracDigits6 (f : ℕ) (h : f < 1000000) :
    fracOfDigits (fracDigits6 f) = (f : ℚ) / 1000000 := by
  unfold fracDigits6 fracOfDigits
  rw [natOfDigits_append, natOfDigits_replicate_zero, natToDigits_spec]
  have hL : (natToDigits f).length ≤ 6 :=
    natToDigits_length_le 6 f (by norm_num) (lt_of_lt_of_le h (by norm_num))
  have he : (6 - (natToDigits f).length) + (natToDigits f).length = 6 := by omega
  rw [List.length_append, List.length_replicate, he]
  norm_num

theorem allDigits_fracDigits6 (f : ℕ) : allDigits (fracDigits6 f) = true := by
  simp only [fracDigits6, allDigits, List.all_eq_true]
  intro c hc
  rcases List.mem_append.mp hc with hc1 | hc2
  · rw [List.eq_of_mem_replicate hc1]
    decide
  · have := allDigits_natToDigits f
    simp only [allDigits, List.all_eq_true] at this
    exact this c hc2

theorem secondsStr_split (μ : ℕ) :
    ((secondsStr μ).toList.takeWhile Char.isDigit = natToDigits (μ / 1000000)) ∧
    ((secondsStr μ).toList.dropWhile Char.isDigit =
      '.' :: trimFrac (fracDigits6 (μ % 1000000))) := by
  have hA : ∀ c ∈ natToDigits (μ / 1000000), c.isDigit = true := by
    have := allDigits_natToDigits (μ / 1000000)
    simp only [allDigits, List.all_eq_true] at this
    exact this
  exact takeWhile_append_sat Char.isDigit _ _ '.' hA (by decide)

theorem secondsStr_ne_empty (μ : ℕ) : ¬ secondsStr μ = "" := by
  intro h
  have h1 : (secondsStr μ).toList = [] := by rw [h]; rfl
  have h2 : (secondsStr μ).toList =
      natToDigits (μ / 1000000) ++ '.' :: trimFrac (fracDigits6 (μ % 1000000)) := rfl
  rw [h2] at h1
  exact natToDigits_ne_nil _ (List.append_eq_nil.mp h1).1

theorem matchSeconds_secondsStr (μ : ℕ) (h : μ < 10 ^ 16) :
    matchSeconds (secondsStr μ).toList = true := by
  obtain ⟨ht, hd⟩ := secondsStr_split μ
  have hip1 : 1 ≤ (natToDigits (μ / 1000000)).length := natToDigits_length_pos _
  have hip10 : (natToDigits (μ / 1000000)).length ≤ 10 := by
    apply natToDigits_length_le 10 _ (by norm_num)
    rw [Nat.div_lt_iff_lt_mul (by norm_num : 0 < 1000000)]
    calc μ < 10 ^ 16 := h
      _ = 10 ^ 10 * 1000000 := by norm_num
  have hfr1 : 1 ≤ (trimFrac (fracDigits6 (μ % 1000000))).length :=
    List.length_pos.mpr (trimFrac_ne_nil _)
  have hfrd : allDigits (trimFrac (fracDigits6 (μ % 1000000))) = true :=
    allDigits_trimFrac _ (allDigits_fracDigits6 _)
  simp only [matchSeconds, ht, hd]
  simp [hip1, hip10, hfr1, hfrd]

theorem parseDecimal_secondsStr (μ : ℕ) :
    parseDecimal (secondsStr μ).toList = (μ : ℚ) / 1000000 := by
  obtain ⟨ht, hd⟩ := secondsStr_split μ
  simp only [parseDecimal, ht, hd]
  rw [natToDigits_spec, fracOfDigits_trimFrac,
    fracOfDigits_fracDigits6 _ (Nat.mod_lt μ (by norm_num))]
  have hdm : (μ : ℚ) = ((μ / 1000000 : ℕ) : ℚ) * 1000000 + ((μ % 1000000 : ℕ) : ℚ) := by
    exact_mod_cast (by omega : μ = (μ / 1000000) * 1000000 + μ % 1000000)
  field_simp
  linarith [hdm]

/-- C4 (amended): for every Timestamp whose epoch value is in `[0, 10^10)`
seconds — `μ` microseconds with `μ < 10^16` — formatting it as the report's
epoch-seconds string and reclassifying it with `parse_t` recovers the
timestamp exactly, in particular to at least millisecond precision. -/
theorem c4_roundtrip (μ : ℕ) (h : μ < 10 ^ 16) (np : String → Except String PValue) :
    parse_t np (some (secondsStr μ)) = .ok (some ((μ : ℚ) / 1000000)) := by
  rw [parse_t_seconds np (secondsStr μ) (secondsStr_ne_empty μ) (matchSeconds_secondsStr μ h)]
  rw [parseDecimal_secondsStr μ]

/-- C4 witness: the timestamp 1645478952.985869 (2022-02-21T21:29:12.985869
UTC): its seconds string reparses to exactly itself. -/
theorem c4_roundtrip_witness :
    parse_t nlRejectNumeric (some (secondsStr 1645478952985869)) =
      .ok (some ((1645478952985869 : ℚ) / 1000000)) :=
  c4_roundtrip 1645478952985869 (by norm_num) nlRejectNumeric

/-- C4 counterexample: the Timestamp at exactly 10^10 epoch seconds
(2286-11-20T17:46:40 UTC, `μ = 10^16`): its seconds string "10000000000.0"
has an 11-digit integer part, matches none of the three epoch patterns, and
is delegated to the natural-language parser, which fails on such numeric text
(spec section 4.2) — so the round trip raises a parse error instead of
recovering the timestamp, refuting the claim's "for any Timestamp". -/
theorem c4_counterexample :
    secondsStr (10 ^ 16) = "10000000000.0" ∧
    parse_t nlRejectNumeric (some (secondsStr (10 ^ 16))) =
      .error (.parserError (nlParseMsg "10000000000.0")) := by
  have hs : secondsStr (10 ^ 16) = "10000000000.0" := by decide
  refine ⟨hs, ?_⟩
  rw [hs]
  have hp := parse_t_delegates nlRejectNumeric "10000000000.0"
    (by decide) (by decide) (by decide) (by decide)
  rw [hp]
  have hn : nlRejectNumeric "10000000000.0" =
      .error (nlParseMsg "10000000000.0") := by
    simp only [nlRejectNumeric]
    rw [if_pos (by decide)]
  simp [fallbackResult, hn]
